import Mathlib

/-!
Shallow embedding of the chain-selection program in
`src/Chapters/Chapter 8/showtime.js` (functions `getTxFee`, `getSubsidy`,
`validateBlock`, and the body of `showtime`), together with theorems that
check the natural-language specification against it.

Modelling conventions:
* JavaScript `Number` values that the program treats as integers are modelled
  as `Int` (all numbers involved stay far inside the double-precision safe
  integer range).
* The program mixes `Number` and `BigInt` arithmetic: `getSubsidy` returns the
  BigInt literal `0n` in its `halvings >= 64` branch and a `Number` otherwise.
  The sum `subsidy + fee` in `validateBlock` throws a `TypeError` whenever
  `subsidy` is a BigInt and `fee` a Number, so the numeric type of every value
  is tracked by the inductive `JSNum`, and fallible evaluation is modelled
  with `Except Unit`.
* JavaScript objects used as string-keyed dictionaries (`tips`, `prevs`) are
  modelled as association lists with JavaScript semantics: property update
  keeps the position of an existing key and appends new keys at the end
  (`Object.values` and `for…in` enumerate non-index string keys in insertion
  order), and `delete` removes the entry.
-/

deriving instance DecidableEq for Except

/-- A JavaScript numeric value, tagged with its primitive type
(`Number` or `BigInt`). -/
inductive JSNum where
  | num (v : Int)
  | big (v : Int)
deriving DecidableEq, Repr

/-- The mathematical value carried by a JavaScript numeric value. -/
def JSNum.val : JSNum → Int
  | .num v => v
  | .big v => v

/-- A transaction: ordered input values and output values (the program reads
only the `value` field of each input/output object). -/
structure Tx where
  inputs : List Int
  outputs : List Int
deriving DecidableEq, Repr

/-- A block: hash, previous-block hash, height and ordered transactions
(index 0 is the coinbase). -/
structure Block where
  hash : String
  prev : String
  height : Nat
  txs : List Tx
deriving DecidableEq, Repr

/-- `getTxFee` from showtime.js: sum of input values minus sum of output
values, accumulated exactly as the two `for` loops do. -/
def getTxFee (tx : Tx) : Int :=
  let fee := tx.inputs.foldl (fun f v => f + v) 0
  tx.outputs.foldl (fun f v => f - v) fee

/-- `getSubsidy` from showtime.js.  `halvings` is
`BigInt(Math.floor(height / 210000))`; when `halvings >= 64` the function
returns the BigInt `0n`, otherwise it computes
`BigInt(5000000000) >> halvings` (floor division by `2 ^ halvings`, exact
here) and converts it with `Number(...)` (also exact, the value fits a
double). -/
def getSubsidy (height : Nat) : JSNum :=
  let halvings := height / 210000
  if 64 ≤ halvings then
    JSNum.big 0
  else
    JSNum.num ((5000000000 / 2 ^ halvings : Nat) : Int)

/-- The total fee accumulated by the loop
`for (let i = 1; i < block["txs"].length; i++) fee += getTxFee(...)`. -/
def blockFee (b : Block) : Int :=
  (b.txs.drop 1).foldl (fun f tx => f + getTxFee tx) 0

/-- The value `block["txs"][0]["outputs"][0]["value"]`, when the accesses are
defined. -/
def coinbaseOutput0 (b : Block) : Option Int :=
  match b.txs with
  | [] => none
  | t0 :: _ =>
    match t0.outputs with
    | [] => none
    | v :: _ => some v

/-- `validateBlock` from showtime.js.  `Except.error ()` models a thrown
`TypeError`: either from `subsidy + fee` when `getSubsidy` produced a BigInt
(the `+` is evaluated before the right operand of `===`), or from the
property accesses `block["txs"][0]["outputs"][0]` on a malformed block. -/
def validateBlock (b : Block) : Except Unit Bool :=
  match getSubsidy b.height with
  | .big _ => .error ()
  | .num s =>
    match coinbaseOutput0 b with
    | none => .error ()
    | some c => .ok (decide (s + blockFee b = c))

/-- The value of `getSubsidy`, as a natural number. -/
def subVal (h : Nat) : Nat :=
  if 64 ≤ h / 210000 then 0 else 5000000000 / 2 ^ (h / 210000)

theorem getSubsidy_val (h : Nat) : (getSubsidy h).val = (subVal h : Int) := by
  by_cases h64 : 64 ≤ h / 210000 <;> simp [getSubsidy, subVal, h64, JSNum.val]

theorem subVal_anti {h h' : Nat} (hle : h ≤ h') : subVal h' ≤ subVal h := by
  have he : h / 210000 ≤ h' / 210000 := Nat.div_le_div_right hle
  by_cases h64 : 64 ≤ h' / 210000
  · simp [subVal, h64]
  · have h64' : ¬ 64 ≤ h / 210000 := fun hc => h64 (le_trans hc he)
    simp only [subVal, h64, h64', if_false]
    exact Nat.div_le_div_left (Nat.pow_le_pow_right (by norm_num) he)
      (Nat.pos_pow_of_pos _ (by norm_num))

theorem subVal_halves (k : Nat) :
    subVal ((k + 1) * 210000) = subVal (k * 210000) / 2 := by
  have e1 : (k + 1) * 210000 / 210000 = k + 1 := by omega
  have e2 : k * 210000 / 210000 = k := by omega
  unfold subVal
  rw [e1, e2]
  by_cases hk : 64 ≤ k
  · have hk1 : 64 ≤ k + 1 := le_trans hk (Nat.le_succ k)
    simp [hk, hk1]
  · by_cases hk1 : 64 ≤ k + 1
    · have hk63 : k = 63 := by omega
      subst hk63
      have hz : (5000000000 : Nat) / 2 ^ 63 = 0 :=
        Nat.div_eq_of_lt (by norm_num)
      simp [hk, hk1, hz]
    · simp only [hk, hk1, if_false]
      rw [Nat.div_div_eq_div_mul, ← pow_succ]

/-- C2: for every non-negative height, the subsidy is `0` from era 64 on and
`⌊5000000000 / 2^era⌋` before; the listed concrete values hold; the subsidy
is non-increasing in the height and halves at every 210000-block boundary. -/
theorem getSubsidy_spec :
    (∀ h : Nat, 64 ≤ h / 210000 → (getSubsidy h).val = 0) ∧
    (∀ h : Nat, h / 210000 < 64 →
      (getSubsidy h).val = ((5000000000 / 2 ^ (h / 210000) : Nat) : Int)) ∧
    (getSubsidy 0).val = 5000000000 ∧
    (getSubsidy 209999).val = 5000000000 ∧
    (getSubsidy 210000).val = 2500000000 ∧
    (getSubsidy 420000).val = 1250000000 ∧
    (getSubsidy 13440000).val = 0 ∧
    (∀ h h' : Nat, h ≤ h' → (getSubsidy h').val ≤ (getSubsidy h).val) ∧
    (∀ k : Nat,
      (getSubsidy ((k + 1) * 210000)).val = (getSubsidy (k * 210000)).val / 2) := by
  refine ⟨?_, ?_, ?_, ?_, ?_, ?_, ?_, ?_, ?_⟩
  · intro h h64
    rw [getSubsidy_val]
    simp [subVal, h64]
  · intro h h64
    rw [getSubsidy_val]
    simp [subVal, Nat.not_le.mpr h64]
  · decide
  · decide
  · decide
  · decide
  · decide
  · intro h h' hle
    rw [getSubsidy_val, getSubsidy_val]
    exact_mod_cast subVal_anti hle
  · intro k
    rw [getSubsidy_val, getSubsidy_val, subVal_halves]
    generalize subVal (k * 210000) = n
    omega

/-- Witness for C2 at concrete heights. -/
theorem getSubsidy_spec_witness :
    (getSubsidy 13440000).val = 0 ∧
    (getSubsidy 210000).val ≤ (getSubsidy 5).val ∧
    (getSubsidy 210000).val = (getSubsidy 0).val / 2 := by
  obtain ⟨h1, _, _, _, _, _, _, h8, h9⟩ := getSubsidy_spec
  refine ⟨h1 13440000 (by norm_num), h8 5 210000 (by norm_num), ?_⟩
  have := h9 0
  simpa using this

/-- C3: contrary to the claim, on every block whose height has reached
subsidy era 64 (height ≥ 13440000) `validateBlock` does not produce a
boolean but throws: `getSubsidy` returns the BigInt `0n` and
`subsidy + fee` then mixes a BigInt with a Number (a `TypeError`). -/
theorem validateBlock_error_of_era64 (b : Block) (hb : 13440000 ≤ b.height) :
    validateBlock b = .error () := by
  have h64 : 64 ≤ b.height / 210000 := by omega
  simp [validateBlock, getSubsidy, h64]

/-- Below era 64 the validator returns an ordinary boolean: true exactly when
the first coinbase output equals subsidy plus accumulated fees. -/
theorem validateBlock_ok_of_lt_era64 (b : Block) (hh : b.height / 210000 < 64)
    (c : Int) (hc : coinbaseOutput0 b = some c) :
    validateBlock b = .ok (decide ((getSubsidy b.height).val + blockFee b = c)) := by
  have h64 : ¬ 64 ≤ b.height / 210000 := Nat.not_le.mpr hh
  simp [validateBlock, getSubsidy, h64, hc, JSNum.val]

/-- A block at height 0 whose coinbase claims `v` satoshis and with one
non-coinbase transaction paying a fee of 500. -/
def blk0 (v : Int) : Block :=
  { hash := "b0", prev := "p0", height := 0,
    txs := [{ inputs := [], outputs := [v] }, { inputs := [1000], outputs := [500] }] }

/-- A well-formed block at height 13440000 (subsidy era 64) whose coinbase
claims exactly subsidy (0) plus fees (0). -/
def blkC1fail : Block :=
  { hash := "bfail", prev := "pfail", height := 13440000,
    txs := [{ inputs := [], outputs := [0] }] }

/-- C1: at height 0 with one transaction of fee 500 the strict-equality rule
holds for 5000000500 / 5000000501 / 5000000499; but at height 13440000,
where the claimed coinbase equality `0 = subsidy 0 + fees 0` holds, the code
does not return `true` — it throws, because `getSubsidy` returns the BigInt
`0n` and `subsidy + fee` then raises a `TypeError`. -/
theorem validateBlock_c1 :
    validateBlock (blk0 5000000500) = .ok true ∧
    validateBlock (blk0 5000000501) = .ok false ∧
    validateBlock (blk0 5000000499) = .ok false ∧
    (getSubsidy blkC1fail.height).val + blockFee blkC1fail = 0 ∧
    coinbaseOutput0 blkC1fail = some 0 ∧
    validateBlock blkC1fail = .error () := by
  refine ⟨rfl, rfl, rfl, by decide, rfl, rfl⟩

/-- A well-formed block at the first height of subsidy era 64. -/
def blkEra64 : Block :=
  { hash := "b64", prev := "p64", height := 13440000,
    txs := [{ inputs := [], outputs := [5] }] }

/-- C3 evaluated at the failing input: a well-formed block at height 13440000
makes `validateBlock` throw instead of returning a boolean. -/
theorem validateBlock_c3_witness : validateBlock blkEra64 = .error () :=
  validateBlock_error_of_era64 blkEra64 (by decide)

/-- Lookup in a JavaScript object modelled as an association list
(`obj[key]`; an absent property, `undefined`, becomes `none`). -/
def lookupJS {α : Type} (m : List (String × α)) (k : String) : Option α :=
  match m with
  | [] => none
  | p :: rest => if p.1 = k then some p.2 else lookupJS rest k

/-- `obj[key] = v`: update in place if the key exists, append otherwise
(JavaScript keeps the insertion position of an existing string key). -/
def setKeyJS {α : Type} (m : List (String × α)) (k : String) (v : α) :
    List (String × α) :=
  if m.any (fun p => decide (p.1 = k)) then
    m.map (fun p => if p.1 = k then (k, v) else p)
  else m ++ [(k, v)]

/-- `delete obj[key]`. -/
def eraseKeyJS {α : Type} (m : List (String × α)) (k : String) :
    List (String × α) :=
  m.filter (fun p => decide (p.1 ≠ k))

/-- The conditional deletion `if (tips[block["prev"]]) { delete tips[...] }`
(the stored values are objects, hence always truthy, so the guard is a
presence test). -/
def condErase {α : Type} (m : List (String × α)) (k : String) :
    List (String × α) :=
  if (lookupJS m k).isSome then eraseKeyJS m k else m

theorem lookupJS_append {α : Type} (m l : List (String × α)) (k : String) :
    lookupJS (m ++ l) k = (lookupJS m k).or (lookupJS l k) := by
  induction m with
  | nil => simp [lookupJS]
  | cons p rest ih =>
    by_cases hp : p.1 = k <;> simp [lookupJS, hp, ih]

theorem lookupJS_eq_none_of_not_any {α : Type} (m : List (String × α))
    (k : String) (h : m.any (fun p => decide (p.1 = k)) = false) :
    lookupJS m k = none := by
  induction m with
  | nil => rfl
  | cons p rest ih =>
    simp only [List.any_cons, Bool.or_eq_false_iff, decide_eq_false_iff_not] at h
    simp [lookupJS, h.1, ih h.2]

theorem lookupJS_map_replace_ne {α : Type} (m : List (String × α)) (k : String)
    (v : α) (k' : String) (hne : k' ≠ k) :
    lookupJS (m.map (fun p => if p.1 = k then (k, v) else p)) k' = lookupJS m k' := by
  induction m with
  | nil => rfl
  | cons p rest ih =>
    by_cases hp : p.1 = k
    · subst hp
      simp [lookupJS, Ne.symm hne, ih]
    · simp [lookupJS, hp, ih]

theorem lookupJS_map_replace_self {α : Type} (m : List (String × α)) (k : String)
    (v : α) (h : m.any (fun p => decide (p.1 = k)) = true) :
    lookupJS (m.map (fun p => if p.1 = k then (k, v) else p)) k = some v := by
  induction m with
  | nil => simp at h
  | cons p rest ih =>
    by_cases hp : p.1 = k
    · simp [lookupJS, hp]
    · simp only [List.any_cons, Bool.or_eq_true, decide_eq_true_eq] at h
      rcases h with h | h
      · exact absurd h hp
      · simp [lookupJS, hp, ih h]

theorem lookupJS_setKeyJS {α : Type} (m : List (String × α)) (k : String) (v : α)
    (k' : String) :
    lookupJS (setKeyJS m k v) k' = if k' = k then some v else lookupJS m k' := by
  unfold setKeyJS
  by_cases hany : m.any (fun p => decide (p.1 = k)) = true
  · simp only [hany, if_true]
    by_cases hk : k' = k
    · subst hk; simp [lookupJS_map_replace_self m k' v hany]
    · simp [hk, lookupJS_map_replace_ne m k v k' hk]
  · have hany' : m.any (fun p => decide (p.1 = k)) = false := by
      cases hb : m.any (fun p => decide (p.1 = k)) with
      | false => rfl
      | true => exact absurd hb hany
    simp only [hany', Bool.false_eq_true, if_false]
    rw [lookupJS_append]
    by_cases hk : k' = k
    · subst hk
      simp [lookupJS_eq_none_of_not_any m k' hany', lookupJS]
    · cases hm : lookupJS m k' <;> simp [lookupJS, hk, Ne.symm hk, hm]

theorem lookupJS_eraseKeyJS {α : Type} (m : List (String × α)) (k k' : String) :
    lookupJS (eraseKeyJS m k) k' = if k' = k then none else lookupJS m k' := by
  induction m with
  | nil => simp [eraseKeyJS, lookupJS]
  | cons p rest ih =>
    simp only [eraseKeyJS, List.filter_cons] at ih ⊢
    by_cases hp : p.1 = k
    · have hd : (decide (p.1 ≠ k)) = false := by simp [hp]
      rw [hd]
      simp only [Bool.false_eq_true, if_false]
      rw [ih]
      by_cases hk : k' = k
      · simp [hk]
      · have hpk' : p.1 ≠ k' := by rw [hp]; exact Ne.symm hk
        simp [lookupJS, hk, hpk']
    · have hd : (decide (p.1 ≠ k)) = true := by simp [hp]
      rw [hd]
      simp only [if_true]
      by_cases hpk' : p.1 = k'
      · have hk : ¬ k' = k := fun h => hp (by rw [hpk', h])
        simp [lookupJS, hpk', hk]
      · by_cases hk : k' = k <;> simpa [lookupJS, hpk', hk, hp] using ih

theorem lookupJS_condErase {α : Type} (m : List (String × α)) (k k' : String) :
    lookupJS (condErase m k) k' = if k' = k then none else lookupJS m k' := by
  unfold condErase
  split
  · exact lookupJS_eraseKeyJS m k k'
  · rename_i hns
    by_cases hk : k' = k
    · subst hk
      cases hm : lookupJS m k' with
      | none => simp [hm]
      | some v => simp [hm] at hns
    · simp [hk]

/-- The mutable state of the phase-1 scan in `showtime`:
`tips` (hash → block), `prevs` (hash → parent hash) and the `invalid`
array of hashes, in insertion order. -/
structure ScanState where
  tips : List (String × Block)
  prevs : List (String × String)
  invalid : List String
deriving DecidableEq, Repr

/-- The body of the `for (let bhash of candidates)` loop in `showtime`,
for one candidate: `bhash` is the candidate hash and `block` the result of
`Bitcoin.rpc("getblock", bhash)`.  `Except.error ()` models an exception
propagating out of the loop (in this model only `validateBlock` can throw;
note that the `||` short-circuits, so a candidate whose parent is already
invalid is rejected without calling `validateBlock` at all). -/
def processCandidate (st : ScanState) (bhash : String) (block : Block) :
    Except Unit ScanState :=
  if block.prev ∈ st.invalid then
    .ok { st with invalid := st.invalid ++ [bhash] }
  else
    match validateBlock block with
    | .error e => .error e
    | .ok false => .ok { st with invalid := st.invalid ++ [bhash] }
    | .ok true =>
      .ok { st with
            tips := setKeyJS (condErase st.tips block.prev) block.hash block,
            prevs := setKeyJS st.prevs bhash block.prev }

/-- The candidate loop over a list of fetched `(bhash, block)` pairs. -/
def processBlocks (st : ScanState) (cs : List (String × Block)) :
    Except Unit ScanState :=
  match cs with
  | [] => .ok st
  | c :: rest =>
    match processCandidate st c.1 c.2 with
    | .error e => .error e
    | .ok st' => processBlocks st' rest

theorem processCandidate_rejected_prev (st : ScanState) (bhash : String)
    (block : Block) (h : block.prev ∈ st.invalid) :
    processCandidate st bhash block = .ok { st with invalid := st.invalid ++ [bhash] } := by
  simp [processCandidate, h]

theorem processCandidate_rejected_false (st : ScanState) (bhash : String)
    (block : Block) (h : block.prev ∉ st.invalid)
    (hv : validateBlock block = .ok false) :
    processCandidate st bhash block = .ok { st with invalid := st.invalid ++ [bhash] } := by
  simp [processCandidate, h, hv]

theorem processCandidate_accepted (st : ScanState) (bhash : String)
    (block : Block) (h : block.prev ∉ st.invalid)
    (hv : validateBlock block = .ok true) :
    processCandidate st bhash block =
      .ok { st with
            tips := setKeyJS (condErase st.tips block.prev) block.hash block,
            prevs := setKeyJS st.prevs bhash block.prev } := by
  simp [processCandidate, h, hv]

theorem processCandidate_error (st : ScanState) (bhash : String)
    (block : Block) (h : block.prev ∉ st.invalid)
    (hv : validateBlock block = .error ()) :
    processCandidate st bhash block = .error () := by
  simp [processCandidate, h, hv]

/-- Every branch of one candidate step leaves `invalid` unchanged or appends
exactly the candidate hash. -/
theorem processCandidate_invalid_cases (st : ScanState) (bhash : String)
    (block : Block) (st' : ScanState)
    (h : processCandidate st bhash block = .ok st') :
    st'.invalid = st.invalid ∨ st'.invalid = st.invalid ++ [bhash] := by
  unfold processCandidate at h
  by_cases hp : block.prev ∈ st.invalid
  · simp [hp] at h
    right; rw [← h]
  · simp [hp] at h
    cases hv : validateBlock block with
    | error e => rw [hv] at h; cases h
    | ok b =>
      rw [hv] at h
      cases b with
      | false => simp at h; right; rw [← h]
      | true => simp at h; left; rw [← h]

/-- Membership in `invalid` is preserved by each scan step. -/
theorem processBlocks_invalid_mono (cs : List (String × Block)) :
    ∀ st st' : ScanState, processBlocks st cs = .ok st' →
      ∀ h ∈ st.invalid, h ∈ st'.invalid := by
  induction cs with
  | nil => intro st st' hok h hm; cases hok; exact hm
  | cons c rest ih =>
    intro st st' hok h hm
    unfold processBlocks at hok
    cases hpc : processCandidate st c.1 c.2 with
    | error e => rw [hpc] at hok; cases hok
    | ok s1 =>
      rw [hpc] at hok
      refine ih s1 st' hok h ?_
      rcases processCandidate_invalid_cases st c.1 c.2 s1 hpc with he | he <;>
        simp [he, hm]

/-- If a candidate's parent is invalid at the start of a batch, the
candidate's own hash ends up invalid after the batch. -/
theorem processBlocks_descendant_rejected (cs : List (String × Block)) :
    ∀ st st' : ScanState, processBlocks st cs = .ok st' →
      ∀ p ∈ cs, p.2.prev ∈ st.invalid → p.1 ∈ st'.invalid := by
  induction cs with
  | nil => intro st st' hok p hm; cases hm
  | cons c rest ih =>
    intro st st' hok p hm hprev
    unfold processBlocks at hok
    cases hpc : processCandidate st c.1 c.2 with
    | error e => rw [hpc] at hok; cases hok
    | ok s1 =>
      rw [hpc] at hok
      rcases List.mem_cons.mp hm with hm | hm
      · subst hm
        rw [processCandidate_rejected_prev st p.1 p.2 hprev] at hpc
        have hs1 : s1.invalid = st.invalid ++ [p.1] := by
          cases hpc; rfl
        refine processBlocks_invalid_mono rest s1 st' hok p.1 ?_
        simp [hs1]
      · refine ih s1 st' hok p hm ?_
        rcases processCandidate_invalid_cases st c.1 c.2 s1 hpc with he | he <;>
          simp [he, hprev]

/-- C4: a candidate with an invalid parent, or failing validation, only gets
its hash appended to `invalid` (never entering `tips` or `prevs`); the
invalid-parent rejection needs no assumption about `validateBlock` at all
(the `||` short-circuit: the coinbase rule is not evaluated); invalid hashes
are never removed by later steps, and every later candidate naming an
invalid hash as parent is itself rejected. -/
theorem invalid_propagation_spec (st : ScanState) (bhash : String) (b : Block)
    (cs : List (String × Block)) (st' : ScanState) :
    ((b.prev ∈ st.invalid ∨ validateBlock b = .ok false) →
      processCandidate st bhash b = .ok { st with invalid := st.invalid ++ [bhash] }) ∧
    (b.prev ∈ st.invalid →
      processCandidate st bhash b = .ok { st with invalid := st.invalid ++ [bhash] }) ∧
    (processBlocks st cs = .ok st' →
      (∀ h ∈ st.invalid, h ∈ st'.invalid) ∧
      (∀ p ∈ cs, p.2.prev ∈ st.invalid → p.1 ∈ st'.invalid)) := by
  refine ⟨?_, ?_, ?_⟩
  · intro h
    by_cases hp : b.prev ∈ st.invalid
    · exact processCandidate_rejected_prev st bhash b hp
    · rcases h with h | h
      · exact absurd h hp
      · exact processCandidate_rejected_false st bhash b hp h
  · intro hp
    exact processCandidate_rejected_prev st bhash b hp
  · intro hok
    exact ⟨processBlocks_invalid_mono cs st st' hok,
           processBlocks_descendant_rejected cs st st' hok⟩

/-- A candidate naming an already-invalid parent; it is also malformed and at
era 64, so `validateBlock` would throw on it — rejection happens anyway. -/
def blkBadParent : Block :=
  { hash := "child", prev := "badp", height := 13440000, txs := [] }

/-- Witness for C4: with `"badp"` already invalid, the candidate `"child"`
(whose own validation would throw) is appended to `invalid`, and after the
batch its hash is in the final invalid set. -/
theorem invalid_propagation_witness :
    processCandidate { tips := [], prevs := [], invalid := ["badp"] } "child" blkBadParent =
      .ok { tips := [], prevs := [], invalid := ["badp"] ++ ["child"] } ∧
    "child" ∈ ({ tips := [], prevs := [], invalid := ["badp", "child"] } : ScanState).invalid := by
  have h := invalid_propagation_spec { tips := [], prevs := [], invalid := ["badp"] }
      "child" blkBadParent [("child", blkBadParent)]
      { tips := [], prevs := [], invalid := ["badp", "child"] }
  refine ⟨h.2.1 (by decide), ?_⟩
  exact (h.2.2 (by decide)).2 ("child", blkBadParent) (by decide) (by decide)

/-- C10: frame property of one candidate step.  A rejected candidate changes
nothing but appending its hash to `invalid`; an accepted candidate leaves
`invalid` untouched, adds exactly its own entries to `tips` and `prevs`,
removes at most the tip keyed by its parent hash, and preserves every other
entry of both maps. -/
theorem frame_spec (st : ScanState) (bhash : String) (b : Block) :
    ((b.prev ∈ st.invalid ∨ validateBlock b = .ok false) →
      processCandidate st bhash b =
        .ok { tips := st.tips, prevs := st.prevs, invalid := st.invalid ++ [bhash] }) ∧
    (b.prev ∉ st.invalid → validateBlock b = .ok true →
      ∃ st', processCandidate st bhash b = .ok st' ∧
        st'.invalid = st.invalid ∧
        lookupJS st'.tips b.hash = some b ∧
        (∀ k, k ≠ b.hash → k ≠ b.prev → lookupJS st'.tips k = lookupJS st.tips k) ∧
        (b.prev ≠ b.hash → lookupJS st'.tips b.prev = none) ∧
        lookupJS st'.prevs bhash = some b.prev ∧
        (∀ k, k ≠ bhash → lookupJS st'.prevs k = lookupJS st.prevs k)) := by
  constructor
  · intro h
    have := (invalid_propagation_spec st bhash b [] st).1 h
    simpa using this
  · intro hp hv
    refine ⟨_, processCandidate_accepted st bhash b hp hv, rfl, ?_, ?_, ?_, ?_, ?_⟩
    · simp [lookupJS_setKeyJS]
    · intro k hk1 hk2
      simp [lookupJS_setKeyJS, lookupJS_condErase, hk1, hk2]
    · intro hne
      simp [lookupJS_setKeyJS, lookupJS_condErase, hne]
    · simp [lookupJS_setKeyJS]
    · intro k hk
      simp [lookupJS_setKeyJS, hk]

/-- An acceptable candidate at height 0 (coinbase exactly the 50 BTC
subsidy, no other transactions). -/
def blkAccW : Block :=
  { hash := "w", prev := "pw", height := 0,
    txs := [{ inputs := [], outputs := [5000000000] }] }

/-- A candidate failing the coinbase rule at height 0. -/
def blkRejW : Block :=
  { hash := "w2", prev := "pw2", height := 0,
    txs := [{ inputs := [], outputs := [1] }] }

/-- Witness for C10 on a rejected and on an accepted candidate. -/
theorem frame_spec_witness :
    (processCandidate { tips := [], prevs := [], invalid := [] } "w2" blkRejW =
      .ok { tips := [], prevs := [], invalid := [] ++ ["w2"] }) ∧
    (∃ st', processCandidate { tips := [], prevs := [], invalid := [] } "w" blkAccW = .ok st' ∧
      st'.invalid = [] ∧
      lookupJS st'.tips blkAccW.hash = some blkAccW ∧
      (∀ k, k ≠ blkAccW.hash → k ≠ blkAccW.prev →
        lookupJS st'.tips k = lookupJS ([] : List (String × Block)) k) ∧
      (blkAccW.prev ≠ blkAccW.hash → lookupJS st'.tips blkAccW.prev = none) ∧
      lookupJS st'.prevs "w" = some blkAccW.prev ∧
      (∀ k, k ≠ "w" → lookupJS st'.prevs k = lookupJS ([] : List (String × String)) k)) := by
  constructor
  · exact (frame_spec { tips := [], prevs := [], invalid := [] } "w2" blkRejW).1
      (Or.inr (by decide))
  · exact (frame_spec { tips := [], prevs := [], invalid := [] } "w" blkAccW).2
      (by decide) (by decide)

/-- Processing two valid sibling candidates in the given order: the first
evicts the shared parent from `tips`, then both siblings end up in `tips`. -/
theorem siblings_step (st : ScanState) (A X Y : Block)
    (hAinv : A.hash ∉ st.invalid)
    (hx : X.prev = A.hash) (hy : Y.prev = A.hash)
    (hvx : validateBlock X = .ok true) (hvy : validateBlock Y = .ok true)
    (hxy : X.hash ≠ Y.hash) (hxa : X.hash ≠ A.hash) (hya : Y.hash ≠ A.hash) :
    ∃ st', processBlocks st [(X.hash, X), (Y.hash, Y)] = .ok st' ∧
      lookupJS st'.tips X.hash = some X ∧ lookupJS st'.tips Y.hash = some Y ∧
      lookupJS st'.tips A.hash = none := by
  have hx' : X.prev ∉ st.invalid := by rw [hx]; exact hAinv
  have hy' : Y.prev ∉ st.invalid := by rw [hy]; exact hAinv
  have hs1 := processCandidate_accepted st X.hash X hx' hvx
  have hs2 := processCandidate_accepted
      { st with tips := setKeyJS (condErase st.tips X.prev) X.hash X,
                prevs := setKeyJS st.prevs X.hash X.prev }
      Y.hash Y hy' hvy
  refine ⟨{ tips := setKeyJS (condErase (setKeyJS (condErase st.tips X.prev) X.hash X) Y.prev)
              Y.hash Y,
            prevs := setKeyJS (setKeyJS st.prevs X.hash X.prev) Y.hash Y.prev,
            invalid := st.invalid }, ?_, ?_, ?_, ?_⟩
  · simp [processBlocks, hs1, hs2]
  · simp [lookupJS_setKeyJS, lookupJS_condErase, hxy, hy, hxa]
  · simp [lookupJS_setKeyJS]
  · simp [lookupJS_setKeyJS, lookupJS_condErase, hy, Ne.symm hya]

/-- C5: a valid block `A` in `tips` with two valid sibling candidates `B1`,
`B2` (children of `A`): after processing both, in either order, `tips`
contains entries for both siblings and no longer one for `A`. -/
theorem fork_coexistence_spec (st : ScanState) (A B1 B2 : Block)
    (_hA : lookupJS st.tips A.hash = some A)
    (hAinv : A.hash ∉ st.invalid)
    (h1 : B1.prev = A.hash) (h2 : B2.prev = A.hash)
    (hv1 : validateBlock B1 = .ok true) (hv2 : validateBlock B2 = .ok true)
    (hne : B1.hash ≠ B2.hash) (hna1 : B1.hash ≠ A.hash) (hna2 : B2.hash ≠ A.hash) :
    (∃ st', processBlocks st [(B1.hash, B1), (B2.hash, B2)] = .ok st' ∧
      lookupJS st'.tips B1.hash = some B1 ∧ lookupJS st'.tips B2.hash = some B2 ∧
      lookupJS st'.tips A.hash = none) ∧
    (∃ st', processBlocks st [(B2.hash, B2), (B1.hash, B1)] = .ok st' ∧
      lookupJS st'.tips B1.hash = some B1 ∧ lookupJS st'.tips B2.hash = some B2 ∧
      lookupJS st'.tips A.hash = none) := by
  constructor
  · exact siblings_step st A B1 B2 hAinv h1 h2 hv1 hv2 hne hna1 hna2
  · obtain ⟨st', hrun, hB2, hB1, hA0⟩ :=
      siblings_step st A B2 B1 hAinv h2 h1 hv2 hv1 (Ne.symm hne) hna2 hna1
    exact ⟨st', hrun, hB1, hB2, hA0⟩

/-- A parent block sitting in `tips`. -/
def blkA5 : Block :=
  { hash := "a", prev := "z", height := 0,
    txs := [{ inputs := [], outputs := [5000000000] }] }

/-- First valid sibling child of `blkA5` (height 1, coinbase = subsidy). -/
def blkB1 : Block :=
  { hash := "b1", prev := "a", height := 1,
    txs := [{ inputs := [], outputs := [5000000000] }] }

/-- Second valid sibling child of `blkA5`. -/
def blkB2 : Block :=
  { hash := "b2", prev := "a", height := 1,
    txs := [{ inputs := [], outputs := [5000000000] }] }

/-- Witness for C5 on a concrete one-tip state and two valid siblings. -/
theorem fork_coexistence_witness :
    (∃ st', processBlocks { tips := [("a", blkA5)], prevs := [], invalid := [] }
        [(blkB1.hash, blkB1), (blkB2.hash, blkB2)] = .ok st' ∧
      lookupJS st'.tips blkB1.hash = some blkB1 ∧
      lookupJS st'.tips blkB2.hash = some blkB2 ∧
      lookupJS st'.tips blkA5.hash = none) ∧
    (∃ st', processBlocks { tips := [("a", blkA5)], prevs := [], invalid := [] }
        [(blkB2.hash, blkB2), (blkB1.hash, blkB1)] = .ok st' ∧
      lookupJS st'.tips blkB1.hash = some blkB1 ∧
      lookupJS st'.tips blkB2.hash = some blkB2 ∧
      lookupJS st'.tips blkA5.hash = none) :=
  fork_coexistence_spec { tips := [("a", blkA5)], prevs := [], invalid := [] }
    blkA5 blkB1 blkB2 (by decide) (by decide) (by decide) (by decide)
    (by decide) (by decide) (by decide) (by decide) (by decide)

/-- `arr.reduce(function(a, b) { return a["height"] > b["height"] ? a : b })`
with no initial value: `none` models the `TypeError` thrown on an empty
array; otherwise the accumulator starts at the first element. -/
def reduceMax (l : List Block) : Option Block :=
  match l with
  | [] => none
  | x :: xs => some (xs.foldl (fun a b => if b.height < a.height then a else b) x)

/-- `Object.values(tips).reduce(...)` — phase 2 of `showtime`.
`Object.values` enumerates the association list in insertion order. -/
def bestTip (tips : List (String × Block)) : Option Block :=
  reduceMax (tips.map Prod.snd)

/-- The phase-3 walk `while (prevs[best_hash]) { ... }`, with explicit fuel.
A JavaScript string is falsy exactly when empty, so the loop also stops on
an entry whose stored parent hash is `""`.  Whenever the JavaScript loop
terminates, the keys it successfully looks up are pairwise distinct (the
walk is deterministic, so a repeated key would loop forever), hence at most
`prevs.length` lookups succeed and fuel `prevs.length` reproduces every
terminating run exactly. -/
def walkBack (prevs : List (String × String)) : Nat → String → List String
  | 0, h => [h]
  | fuel + 1, h =>
    match lookupJS prevs h with
    | none => [h]
    | some p => if p = "" then [h] else h :: walkBack prevs fuel p

/-- Phases 2 and 3 of `showtime`: pick the best tip by `reduce`, then collect
`best_hash` and its ancestors and `reverse` the result.  `Except.error ()`
models the `TypeError` raised by `reduce` on an empty `tips`. -/
def selectChain (tips : List (String × Block)) (prevs : List (String × String)) :
    Except Unit (List String) :=
  match bestTip tips with
  | none => .error ()
  | some best => .ok (walkBack prevs prevs.length best.hash).reverse

/-- C9: if `tips` is empty when selection starts, the algorithm throws
(`reduce` of an empty array with no initial value) instead of returning an
empty chain. -/
theorem selectChain_empty_tips (prevs : List (String × String)) :
    selectChain [] prevs = .error () := rfl

/-- Modelled from the spec's words for the C6 tie-break claim: the earliest
element in scan order whose height equals the maximum height. -/
def firstMaxTip (l : List Block) : Option Block :=
  l.find? (fun b => l.all (fun c => decide (c.height ≤ b.height)))

/-- A first tip of height 1. -/
def tipX : Block := { hash := "x", prev := "p", height := 1, txs := [] }

/-- A second, distinct tip of the same height 1. -/
def tipY : Block := { hash := "y", prev := "p", height := 1, txs := [] }

/-- C6 counterexample: with two tips of equal maximal height the `reduce`
keeps the SECOND (last) one, not the earliest in scan order as claimed:
`a["height"] > b["height"] ? a : b` hands the accumulator to `b` on ties. -/
theorem bestTip_not_first_maximal :
    bestTip [("x", tipX), ("y", tipY)] = some tipY ∧
    firstMaxTip [tipX, tipY] = some tipX ∧
    some tipY ≠ some tipX := by decide

theorem foldl_maxStep_of_lt (xs : List Block) (a : Block)
    (h : ∀ x ∈ xs, x.height < a.height) :
    xs.foldl (fun a b => if b.height < a.height then a else b) a = a := by
  induction xs generalizing a with
  | nil => rfl
  | cons x rest ih =>
    have hx : x.height < a.height := h x (by simp)
    simp only [List.foldl_cons, hx, if_pos]
    exact ih a (fun y hy => h y (by simp [hy]))

theorem foldl_maxStep_le (xs : List Block) (a : Block) (hmax : Nat)
    (ha : a.height ≤ hmax) (h : ∀ x ∈ xs, x.height ≤ hmax) :
    (xs.foldl (fun a b => if b.height < a.height then a else b) a).height ≤ hmax := by
  induction xs generalizing a with
  | nil => exact ha
  | cons x rest ih =>
    simp only [List.foldl_cons]
    by_cases hx : x.height < a.height
    · simp only [hx, if_pos]
      exact ih a ha (fun y hy => h y (by simp [hy]))
    · simp only [hx, if_neg, not_false_iff]
      exact ih x (h x (by simp)) (fun y hy => h y (by simp [hy]))

/-- C6 amended: the `reduce` keeps the LAST maximal entry of the enumeration:
if every earlier value has height at most `m.height` and every later value
has height strictly below it, `m` is selected. -/
theorem bestTip_last_maximal (t1 t2 : List (String × Block)) (k : String) (m : Block)
    (h1 : ∀ p ∈ t1, p.2.height ≤ m.height)
    (h2 : ∀ p ∈ t2, p.2.height < m.height) :
    bestTip (t1 ++ (k, m) :: t2) = some m := by
  unfold bestTip reduceMax
  cases t1 with
  | nil =>
    simp only [List.nil_append, List.map_cons]
    rw [foldl_maxStep_of_lt (t2.map Prod.snd) m
      (by intro x hx
          obtain ⟨p, hp, rfl⟩ := List.mem_map.mp hx
          exact h2 p hp)]
  | cons q t1' =>
    simp only [List.cons_append, List.map_cons, List.map_append, List.map_cons]
    have hacc : ((t1'.map Prod.snd).foldl
        (fun a b => if b.height < a.height then a else b) q.2).height ≤ m.height := by
      refine foldl_maxStep_le _ _ _ (h1 q (by simp)) ?_
      intro x hx
      obtain ⟨p, hp, rfl⟩ := List.mem_map.mp hx
      exact h1 p (by simp [hp])
    rw [List.foldl_append]
    simp only [List.foldl_cons]
    have hstep : (if m.height <
        ((t1'.map Prod.snd).foldl (fun a b => if b.height < a.height then a else b) q.2).height
        then ((t1'.map Prod.snd).foldl (fun a b => if b.height < a.height then a else b) q.2)
        else m) = m := by
      rw [if_neg]
      omega
    rw [hstep]
    rw [foldl_maxStep_of_lt (t2.map Prod.snd) m
      (by intro x hx
          obtain ⟨p, hp, rfl⟩ := List.mem_map.mp hx
          exact h2 p hp)]

/-- Witness for the amended C6 on a concrete three-tip state: the second of
two equal-height maximal tips wins over both. -/
theorem bestTip_last_maximal_witness :
    bestTip [("x", tipX), ("y", tipY)] = some tipY := by
  have h := bestTip_last_maximal [("x", tipX)] [] "y" tipY
    (by decide) (by decide)
  simpa using h

theorem mem_keys_of_lookupJS {α : Type} (m : List (String × α)) (k : String) (v : α)
    (h : lookupJS m k = some v) : k ∈ m.map Prod.fst := by
  induction m with
  | nil => cases h
  | cons p rest ih =>
    by_cases hp : p.1 = k
    · simp [hp]
    · simp only [lookupJS, hp, if_false] at h
      simp [ih h]

/-- Every element of a lookup chain except the last is a key of `prevs`. -/
theorem chain_sub_keys (prevs : List (String × String)) :
    ∀ chain : List String,
      List.Chain' (fun x y => lookupJS prevs x = some y) chain →
      ∀ x ∈ chain.dropLast, x ∈ prevs.map Prod.fst := by
  intro chain
  induction chain with
  | nil => simp
  | cons a rest ih =>
    intro hchain x hx
    cases rest with
    | nil => simp at hx
    | cons b rest' =>
      rw [List.chain'_cons] at hchain
      obtain ⟨hab, hchain'⟩ := hchain
      have hdl : (a :: b :: rest').dropLast = a :: (b :: rest').dropLast := rfl
      rw [hdl] at hx
      rcases List.mem_cons.mp hx with hxa | hxr
      · subst hxa
        exact mem_keys_of_lookupJS prevs x b hab
      · exact ih hchain' x hxr

/-- A duplicate-free lookup chain cannot be longer than `prevs` plus its
final element. -/
theorem chain_length_le (prevs : List (String × String)) (chain : List String)
    (hnd : chain.Nodup)
    (hchain : List.Chain' (fun x y => lookupJS prevs x = some y) chain) :
    chain.length ≤ prevs.length + 1 := by
  have hsub : ∀ x ∈ chain.dropLast, x ∈ prevs.map Prod.fst :=
    chain_sub_keys prevs chain hchain
  have hnd' : chain.dropLast.Nodup := hnd.sublist (List.dropLast_sublist chain)
  have hsp : chain.dropLast.Subperm (prevs.map Prod.fst) := hnd'.subperm hsub
  have hle : chain.dropLast.length ≤ (prevs.map Prod.fst).length := hsp.length_le
  rw [List.length_dropLast, List.length_map] at hle
  omega

/-- The backward walk reproduces a complete, duplicate-free, non-degenerate
lookup chain exactly, given enough fuel. -/
theorem walkBack_chain (prevs : List (String × String)) :
    ∀ (chain : List String) (fuel : Nat) (a : String),
      chain.head? = some a →
      List.Chain' (fun x y => lookupJS prevs x = some y) chain →
      (∀ z, chain.getLast? = some z → lookupJS prevs z = none) →
      (∀ x ∈ chain, x ≠ "") →
      chain.length ≤ fuel + 1 →
      walkBack prevs fuel a = chain := by
  intro chain
  induction chain with
  | nil => intro fuel a ha; cases ha
  | cons b rest ih =>
    intro fuel a ha hchain hlast hne hlen
    simp only [List.head?_cons, Option.some_inj] at ha
    subst ha
    cases rest with
    | nil =>
      have hl : lookupJS prevs b = none := hlast b (by simp)
      cases fuel with
      | zero => rfl
      | succ f => simp [walkBack, hl]
    | cons c rest' =>
      rw [List.chain'_cons] at hchain
      obtain ⟨hac, hchain'⟩ := hchain
      cases fuel with
      | zero => simp at hlen
      | succ f =>
        have hcne : c ≠ "" := hne c (by simp)
        have hrest : walkBack prevs f c = c :: rest' := by
          refine ih f c (by simp) hchain' ?_ ?_ ?_
          · intro z hz
            refine hlast z ?_
            rw [List.getLast?_cons_cons]
            exact hz
          · intro x hx
            exact hne x (by simp [hx])
          · simp only [List.length_cons] at hlen ⊢
            omega
        simp only [walkBack, hac]
        rw [if_neg hcne, hrest]

/-- With two tips of heights 5 and 7, `reduce` picks the height-7 tip in
either enumeration order. -/
theorem bestTip_two (T1 T2 : Block) (h1 : T1.height = 5) (h2 : T2.height = 7) :
    bestTip [(T1.hash, T1), (T2.hash, T2)] = some T2 ∧
    bestTip [(T2.hash, T2), (T1.hash, T1)] = some T2 := by
  unfold bestTip reduceMax
  simp only [List.map_cons, List.map_nil, List.foldl_cons, List.foldl_nil]
  rw [h1, h2]
  norm_num

/-- C7: with tips T1 (height 5) and T2 (height 7) and a complete,
duplicate-free parent chain in `prevs` from T2 back to the start block
(which has no `prevs` entry), the selection returns T2's lineage oldest
first: right length, adjacent elements linked through `prevs`, last element
T2's hash, appearing exactly once. -/
theorem selection_reconstruction_spec (tips : List (String × Block))
    (prevs : List (String × String)) (T1 T2 : Block) (startHeight : Nat)
    (chain : List String)
    (hT1 : T1.height = 5) (hT2 : T2.height = 7)
    (htips : tips = [(T1.hash, T1), (T2.hash, T2)] ∨
             tips = [(T2.hash, T2), (T1.hash, T1)])
    (hhead : chain.head? = some T2.hash)
    (hlen : chain.length = T2.height - startHeight + 1)
    (hlink : List.Chain' (fun x y => lookupJS prevs x = some y) chain)
    (hlast : ∀ z, chain.getLast? = some z → lookupJS prevs z = none)
    (hnd : chain.Nodup)
    (hne : ∀ x ∈ chain, x ≠ "") :
    selectChain tips prevs = .ok chain.reverse ∧
    chain.reverse.length = T2.height - startHeight + 1 ∧
    chain.reverse.getLast? = some T2.hash ∧
    List.Chain' (fun x y => lookupJS prevs y = some x) chain.reverse ∧
    chain.reverse.count T2.hash = 1 := by
  have hbest : bestTip tips = some T2 := by
    rcases htips with h | h <;> rw [h]
    · exact (bestTip_two T1 T2 hT1 hT2).1
    · exact (bestTip_two T1 T2 hT1 hT2).2
  have hwalk : walkBack prevs prevs.length T2.hash = chain := by
    refine walkBack_chain prevs chain prevs.length T2.hash hhead hlink hlast hne ?_
    exact chain_length_le prevs chain hnd hlink
  have hmem : T2.hash ∈ chain := by
    cases chain with
    | nil => cases hhead
    | cons b rest =>
      simp only [List.head?_cons, Option.some_inj] at hhead
      simp [hhead]
  refine ⟨?_, ?_, ?_, ?_, ?_⟩
  · show selectChain tips prevs = .ok chain.reverse
    unfold selectChain
    rw [hbest]
    show Except.ok (walkBack prevs prevs.length T2.hash).reverse = Except.ok chain.reverse
    rw [hwalk]
  · rw [List.length_reverse, hlen]
  · rw [List.getLast?_reverse, hhead]
  · have := (List.chain'_reverse (l := chain)
      (R := fun x y => lookupJS prevs y = some x)).mpr
    refine this ?_
    simpa [flip] using hlink
  · rw [List.count_reverse]
    exact List.count_eq_one_of_mem hnd hmem

/-- A concrete tip of height 5. -/
def T1w : Block := { hash := "t1", prev := "q", height := 5, txs := [] }

/-- A concrete tip of height 7 whose lineage is recorded in `prevsW`. -/
def T2w : Block := { hash := "t2", prev := "c", height := 7, txs := [] }

/-- A concrete parent index holding T2w's lineage back to the start. -/
def prevsW : List (String × String) := [("t2", "c"), ("c", "b"), ("b", "s")]

/-- T2w's lineage, tip first. -/
def chainW : List String := ["t2", "c", "b", "s"]

/-- Witness for C7 on a concrete two-tip state with start height 4. -/
theorem selection_reconstruction_witness :
    selectChain [(T1w.hash, T1w), (T2w.hash, T2w)] prevsW = .ok chainW.reverse ∧
    chainW.reverse.length = T2w.height - 4 + 1 ∧
    chainW.reverse.getLast? = some T2w.hash ∧
    List.Chain' (fun x y => lookupJS prevsW y = some x) chainW.reverse ∧
    chainW.reverse.count T2w.hash = 1 := by
  refine selection_reconstruction_spec [(T1w.hash, T1w), (T2w.hash, T2w)] prevsW
      T1w T2w 4 chainW rfl rfl (Or.inl rfl) rfl (by decide) ?_ ?_ (by decide) (by decide)
  · simp [chainW, prevsW, List.chain'_cons, lookupJS, T2w]
  · intro z hz
    simp [chainW] at hz
    subst hz
    rfl

/-- Two scan states agreeing on all observations: `tips` and `prevs` as
key-value mappings, `invalid` as a set of hashes. -/
def ExtEq (s t : ScanState) : Prop :=
  (∀ k, lookupJS s.tips k = lookupJS t.tips k) ∧
  (∀ z, z ∈ s.invalid ↔ z ∈ t.invalid) ∧
  (∀ k, lookupJS s.prevs k = lookupJS t.prevs k)

theorem extEq_refl (s : ScanState) : ExtEq s s :=
  ⟨fun _ => rfl, fun _ => Iff.rfl, fun _ => rfl⟩

theorem extEq_trans {a b c : ScanState} (h1 : ExtEq a b) (h2 : ExtEq b c) :
    ExtEq a c :=
  ⟨fun k => (h1.1 k).trans (h2.1 k),
   fun z => (h1.2.1 z).trans (h2.2.1 z),
   fun k => (h1.2.2 k).trans (h2.2.2 k)⟩

/-- Lift of `ExtEq` to fallible results: both throw, or both succeed with
extensionally equal states. -/
def ExceptExtEq : Except Unit ScanState → Except Unit ScanState → Prop
  | .error _, .error _ => True
  | .ok s, .ok t => ExtEq s t
  | _, _ => False

theorem exceptExtEq_refl (r : Except Unit ScanState) : ExceptExtEq r r := by
  cases r with
  | error e => trivial
  | ok s => exact extEq_refl s

theorem exceptExtEq_trans {a b c : Except Unit ScanState}
    (h1 : ExceptExtEq a b) (h2 : ExceptExtEq b c) : ExceptExtEq a c := by
  cases a <;> cases b <;> cases c <;>
    first
    | trivial
    | exact h1.elim
    | exact h2.elim
    | exact extEq_trans h1 h2

/-- One candidate step sends extensionally equal states to extensionally
equal results. -/
theorem processCandidate_ext (s t : ScanState) (hE : ExtEq s t) (hsh : String)
    (b : Block) :
    ExceptExtEq (processCandidate s hsh b) (processCandidate t hsh b) := by
  obtain ⟨hT, hI, hP⟩ := hE
  by_cases hp : b.prev ∈ s.invalid
  · have hp' : b.prev ∈ t.invalid := (hI b.prev).mp hp
    rw [processCandidate_rejected_prev s hsh b hp,
        processCandidate_rejected_prev t hsh b hp']
    refine ⟨hT, ?_, hP⟩
    intro z
    simp [List.mem_append, hI z]
  · have hp' : b.prev ∉ t.invalid := fun hc => hp ((hI b.prev).mpr hc)
    cases hv : validateBlock b with
    | error e =>
      cases e
      rw [processCandidate_error s hsh b hp hv,
          processCandidate_error t hsh b hp' hv]
      trivial
    | ok bv =>
      cases bv with
      | false =>
        rw [processCandidate_rejected_false s hsh b hp hv,
            processCandidate_rejected_false t hsh b hp' hv]
        refine ⟨hT, ?_, hP⟩
        intro z
        simp [List.mem_append, hI z]
      | true =>
        rw [processCandidate_accepted s hsh b hp hv,
            processCandidate_accepted t hsh b hp' hv]
        refine ⟨?_, hI, ?_⟩
        · intro k
          simp [lookupJS_setKeyJS, lookupJS_condErase, hT k]
        · intro k
          simp [lookupJS_setKeyJS, hP k]

/-- A whole batch sends extensionally equal states to extensionally equal
results. -/
theorem processBlocks_ext (l : List (String × Block)) :
    ∀ s t : ScanState, ExtEq s t →
      ExceptExtEq (processBlocks s l) (processBlocks t l) := by
  induction l with
  | nil => intro s t hE; exact hE
  | cons c rest ih =>
    intro s t hE
    have hstep := processCandidate_ext s t hE c.1 c.2
    unfold processBlocks
    cases h1 : processCandidate s c.1 c.2 with
    | error e =>
      cases h2 : processCandidate t c.1 c.2 with
      | error e2 => trivial
      | ok t2 => rw [h1, h2] at hstep; exact hstep.elim
    | ok s2 =>
      cases h2 : processCandidate t c.1 c.2 with
      | error e2 => rw [h1, h2] at hstep; exact hstep.elim
      | ok t2 =>
        rw [h1, h2] at hstep
        exact ih s2 t2 hstep

/-- Swapping two adjacent candidates whose keys and parents do not collide
gives extensionally equal outcomes (any tail processed afterwards). -/
theorem processBlocks_swap (st : ScanState) (x y : String × Block)
    (l : List (String × Block))
    (hx : x.1 = x.2.hash) (hy : y.1 = y.2.hash) (hxy : x.1 ≠ y.1)
    (hpx : x.2.prev ≠ x.1) (hpxy : x.2.prev ≠ y.1)
    (hpyx : y.2.prev ≠ x.1) (hpy : y.2.prev ≠ y.1) :
    ExceptExtEq (processBlocks st (y :: x :: l)) (processBlocks st (x :: y :: l)) := by
  have nxy : x.2.hash ≠ y.2.hash := by rw [← hx, ← hy]; exact hxy
  have npxy : x.2.prev ≠ y.2.hash := by rw [← hy]; exact hpxy
  have npyx : y.2.prev ≠ x.2.hash := by rw [← hx]; exact hpyx
  have npxx : x.2.prev ≠ x.2.hash := by rw [← hx]; exact hpx
  have npyy : y.2.prev ≠ y.2.hash := by rw [← hy]; exact hpy
  by_cases py : y.2.prev ∈ st.invalid
  · have hL1 := processCandidate_rejected_prev st y.1 y.2 py
    by_cases px : x.2.prev ∈ st.invalid
    · have hL2 := processCandidate_rejected_prev
        { st with invalid := st.invalid ++ [y.1] } x.1 x.2
        (by simp [List.mem_append, px])
      have hR1 := processCandidate_rejected_prev st x.1 x.2 px
      have hR2 := processCandidate_rejected_prev
        { st with invalid := st.invalid ++ [x.1] } y.1 y.2
        (by simp [List.mem_append, py])
      simp only [processBlocks, hL1, hL2, hR1, hR2]
      refine processBlocks_ext l _ _ ⟨fun _ => rfl, ?_, fun _ => rfl⟩
      intro z
      simp only [List.mem_append, List.mem_singleton]
      tauto
    · cases hvx : validateBlock x.2 with
      | error e =>
        cases e
        have hL2 := processCandidate_error
          { st with invalid := st.invalid ++ [y.1] } x.1 x.2
          (by simp [List.mem_append, px, hpxy]) hvx
        have hR1 := processCandidate_error st x.1 x.2 px hvx
        simp only [processBlocks, hL1, hL2, hR1]
        trivial
      | ok bv =>
        cases bv with
        | false =>
          have hL2 := processCandidate_rejected_false
            { st with invalid := st.invalid ++ [y.1] } x.1 x.2
            (by simp [List.mem_append, px, hpxy]) hvx
          have hR1 := processCandidate_rejected_false st x.1 x.2 px hvx
          have hR2 := processCandidate_rejected_prev
            { st with invalid := st.invalid ++ [x.1] } y.1 y.2
            (by simp [List.mem_append, py])
          simp only [processBlocks, hL1, hL2, hR1, hR2]
          refine processBlocks_ext l _ _ ⟨fun _ => rfl, ?_, fun _ => rfl⟩
          intro z
          simp only [List.mem_append, List.mem_singleton]
          tauto
        | true =>
          have hL2 := processCandidate_accepted
            { st with invalid := st.invalid ++ [y.1] } x.1 x.2
            (by simp [List.mem_append, px, hpxy]) hvx
          have hR1 := processCandidate_accepted st x.1 x.2 px hvx
          have hR2 := processCandidate_rejected_prev
            { st with tips := setKeyJS (condErase st.tips x.2.prev) x.2.hash x.2,
                      prevs := setKeyJS st.prevs x.1 x.2.prev } y.1 y.2 py
          simp only [processBlocks, hL1, hL2, hR1, hR2]
          exact exceptExtEq_refl _
  · cases hvy : validateBlock y.2 with
    | error e =>
      cases e
      have hL1 := processCandidate_error st y.1 y.2 py hvy
      by_cases px : x.2.prev ∈ st.invalid
      · have hR1 := processCandidate_rejected_prev st x.1 x.2 px
        have hR2 := processCandidate_error
          { st with invalid := st.invalid ++ [x.1] } y.1 y.2
          (by simp [List.mem_append, py, hpyx]) hvy
        simp only [processBlocks, hL1, hR1, hR2]
        trivial
      · cases hvx : validateBlock x.2 with
        | error e2 =>
          cases e2
          have hR1 := processCandidate_error st x.1 x.2 px hvx
          simp only [processBlocks, hL1, hR1]
          trivial
        | ok bv =>
          cases bv with
          | false =>
            have hR1 := processCandidate_rejected_false st x.1 x.2 px hvx
            have hR2 := processCandidate_error
              { st with invalid := st.invalid ++ [x.1] } y.1 y.2
              (by simp [List.mem_append, py, hpyx]) hvy
            simp only [processBlocks, hL1, hR1, hR2]
            trivial
          | true =>
            have hR1 := processCandidate_accepted st x.1 x.2 px hvx
            have hR2 := processCandidate_error
              { st with tips := setKeyJS (condErase st.tips x.2.prev) x.2.hash x.2,
                        prevs := setKeyJS st.prevs x.1 x.2.prev } y.1 y.2 py hvy
            simp only [processBlocks, hL1, hR1, hR2]
            trivial
    | ok bvy =>
      cases bvy with
      | false =>
        have hL1 := processCandidate_rejected_false st y.1 y.2 py hvy
        by_cases px : x.2.prev ∈ st.invalid
        · have hL2 := processCandidate_rejected_prev
            { st with invalid := st.invalid ++ [y.1] } x.1 x.2
            (by simp [List.mem_append, px])
          have hR1 := processCandidate_rejected_prev st x.1 x.2 px
          have hR2 := processCandidate_rejected_false
            { st with invalid := st.invalid ++ [x.1] } y.1 y.2
            (by simp [List.mem_append, py, hpyx]) hvy
          simp only [processBlocks, hL1, hL2, hR1, hR2]
          refine processBlocks_ext l _ _ ⟨fun _ => rfl, ?_, fun _ => rfl⟩
          intro z
          simp only [List.mem_append, List.mem_singleton]
          tauto
        · cases hvx : validateBlock x.2 with
          | error e2 =>
            cases e2
            have hL2 := processCandidate_error
              { st with invalid := st.invalid ++ [y.1] } x.1 x.2
              (by simp [List.mem_append, px, hpxy]) hvx
            have hR1 := processCandidate_error st x.1 x.2 px hvx
            simp only [processBlocks, hL1, hL2, hR1]
            trivial
          | ok bvx =>
            cases bvx with
            | false =>
              have hL2 := processCandidate_rejected_false
                { st with invalid := st.invalid ++ [y.1] } x.1 x.2
                (by simp [List.mem_append, px, hpxy]) hvx
              have hR1 := processCandidate_rejected_false st x.1 x.2 px hvx
              have hR2 := processCandidate_rejected_false
                { st with invalid := st.invalid ++ [x.1] } y.1 y.2
                (by simp [List.mem_append, py, hpyx]) hvy
              simp only [processBlocks, hL1, hL2, hR1, hR2]
              refine processBlocks_ext l _ _ ⟨fun _ => rfl, ?_, fun _ => rfl⟩
              intro z
              simp only [List.mem_append, List.mem_singleton]
              tauto
            | true =>
              have hL2 := processCandidate_accepted
                { st with invalid := st.invalid ++ [y.1] } x.1 x.2
                (by simp [List.mem_append, px, hpxy]) hvx
              have hR1 := processCandidate_accepted st x.1 x.2 px hvx
              have hR2 := processCandidate_rejected_false
                { st with tips := setKeyJS (condErase st.tips x.2.prev) x.2.hash x.2,
                          prevs := setKeyJS st.prevs x.1 x.2.prev } y.1 y.2 py hvy
              simp only [processBlocks, hL1, hL2, hR1, hR2]
              exact exceptExtEq_refl _
      | true =>
        have hL1 := processCandidate_accepted st y.1 y.2 py hvy
        by_cases px : x.2.prev ∈ st.invalid
        · have hL2 := processCandidate_rejected_prev
            { st with tips := setKeyJS (condErase st.tips y.2.prev) y.2.hash y.2,
                      prevs := setKeyJS st.prevs y.1 y.2.prev } x.1 x.2 px
          have hR1 := processCandidate_rejected_prev st x.1 x.2 px
          have hR2 := processCandidate_accepted
            { st with invalid := st.invalid ++ [x.1] } y.1 y.2
            (by simp [List.mem_append, py, hpyx]) hvy
          simp only [processBlocks, hL1, hL2, hR1, hR2]
          exact exceptExtEq_refl _
        · cases hvx : validateBlock x.2 with
          | error e2 =>
            cases e2
            have hL2 := processCandidate_error
              { st with tips := setKeyJS (condErase st.tips y.2.prev) y.2.hash y.2,
                        prevs := setKeyJS st.prevs y.1 y.2.prev } x.1 x.2 px hvx
            have hR1 := processCandidate_error st x.1 x.2 px hvx
            simp only [processBlocks, hL1, hL2, hR1]
            trivial
          | ok bvx =>
            cases bvx with
            | false =>
              have hL2 := processCandidate_rejected_false
                { st with tips := setKeyJS (condErase st.tips y.2.prev) y.2.hash y.2,
                          prevs := setKeyJS st.prevs y.1 y.2.prev } x.1 x.2 px hvx
              have hR1 := processCandidate_rejected_false st x.1 x.2 px hvx
              have hR2 := processCandidate_accepted
                { st with invalid := st.invalid ++ [x.1] } y.1 y.2
                (by simp [List.mem_append, py, hpyx]) hvy
              simp only [processBlocks, hL1, hL2, hR1, hR2]
              exact exceptExtEq_refl _
            | true =>
              have hL2 := processCandidate_accepted
                { st with tips := setKeyJS (condErase st.tips y.2.prev) y.2.hash y.2,
                          prevs := setKeyJS st.prevs y.1 y.2.prev } x.1 x.2 px hvx
              have hR2 := processCandidate_accepted
                { st with tips := setKeyJS (condErase st.tips x.2.prev) x.2.hash x.2,
                          prevs := setKeyJS st.prevs x.1 x.2.prev } y.1 y.2 py hvy
              have hR1 := processCandidate_accepted st x.1 x.2 px hvx
              simp only [processBlocks, hL1, hL2, hR1, hR2]
              refine processBlocks_ext l _ _ ⟨?_, fun _ => Iff.rfl, ?_⟩
              · intro k
                simp only [lookupJS_setKeyJS, lookupJS_condErase]
                by_cases k1 : k = x.2.hash
                · subst k1
                  simp [nxy, Ne.symm npyx]
                · by_cases k2 : k = y.2.hash
                  · subst k2
                    simp [Ne.symm nxy, Ne.symm npxy]
                  · by_cases k3 : k = y.2.prev
                    · subst k3
                      by_cases k4 : y.2.prev = x.2.prev <;>
                        simp [k1, k2, k4, npyy, npxx, npxy]
                    · by_cases k4 : k = x.2.prev
                      · subst k4
                        simp [k3, npxy, npxx]
                      · simp [k1, k2, k3, k4]
              · intro k
                simp only [lookupJS_setKeyJS]
                by_cases k1 : k = x.1
                · subst k1
                  simp [hxy]
                · by_cases k2 : k = y.1
                  · subst k2
                    simp [Ne.symm hxy, k1]
                  · simp [k1, k2]

/-- Independence of a batch of candidates at one height: each pair carries
its block's own hash, candidate hashes are pairwise distinct, and no
candidate's parent hash is any candidate's hash (parents live at the
previous height, already settled). -/
def Indep (cs : List (String × Block)) : Prop :=
  (∀ p ∈ cs, p.1 = p.2.hash) ∧
  (cs.map Prod.fst).Nodup ∧
  (∀ p ∈ cs, ∀ q ∈ cs, p.2.prev ≠ q.1)

theorem Indep.tail {c : String × Block} {l : List (String × Block)}
    (h : Indep (c :: l)) : Indep l := by
  obtain ⟨h1, h2, h3⟩ := h
  refine ⟨fun p hp => h1 p (by simp [hp]), ?_, ?_⟩
  · rw [List.map_cons] at h2
    exact (List.nodup_cons.mp h2).2
  · intro p hp q hq
    exact h3 p (by simp [hp]) q (by simp [hq])

theorem Indep.perm {cs₁ cs₂ : List (String × Block)} (hp : cs₁.Perm cs₂)
    (h : Indep cs₁) : Indep cs₂ := by
  obtain ⟨h1, h2, h3⟩ := h
  refine ⟨fun p hpm => h1 p (hp.mem_iff.mpr hpm), ?_, ?_⟩
  · exact (hp.map Prod.fst).nodup_iff.mp h2
  · intro p hpm q hq
    exact h3 p (hp.mem_iff.mpr hpm) q (hp.mem_iff.mpr hq)

/-- Processing permuted batches of independent candidates from the same
state gives extensionally equal results. -/
theorem processBlocks_perm_ext {cs₁ cs₂ : List (String × Block)}
    (hperm : cs₁.Perm cs₂) :
    ∀ st : ScanState, Indep cs₁ →
      ExceptExtEq (processBlocks st cs₁) (processBlocks st cs₂) := by
  induction hperm with
  | nil => intro st _; exact exceptExtEq_refl _
  | cons c hp ih =>
    intro st hI
    unfold processBlocks
    cases h1 : processCandidate st c.1 c.2 with
    | error e => trivial
    | ok s => exact ih s hI.tail
  | swap a b l =>
    intro st hI
    obtain ⟨h1, h2, h3⟩ := hI
    have hbmem : b ∈ b :: a :: l := by simp
    have hamem : a ∈ b :: a :: l := by simp
    have hba : b.1 ≠ a.1 := by
      rw [List.map_cons, List.map_cons] at h2
      rcases List.nodup_cons.mp h2 with ⟨hnmem, _⟩
      exact fun hc => hnmem (by simp [hc])
    exact processBlocks_swap st a b l (h1 a hamem) (h1 b hbmem) (Ne.symm hba)
      (h3 a hamem a hamem) (h3 a hamem b hbmem)
      (h3 b hbmem a hamem) (h3 b hbmem b hbmem)
  | trans h12 h23 ih1 ih2 =>
    intro st hI
    exact exceptExtEq_trans (ih1 st hI) (ih2 st (hI.perm h12))

/-- Under error-free validation, a batch always yields a final state. -/
theorem processBlocks_ok (cs : List (String × Block)) :
    (∀ p ∈ cs, validateBlock p.2 ≠ .error ()) →
    ∀ st : ScanState, ∃ st', processBlocks st cs = .ok st' := by
  induction cs with
  | nil => intro _ st; exact ⟨st, rfl⟩
  | cons c rest ih =>
    intro hne st
    have hc : validateBlock c.2 ≠ .error () := hne c (by simp)
    have hstep : ∃ s, processCandidate st c.1 c.2 = .ok s := by
      by_cases hp : c.2.prev ∈ st.invalid
      · exact ⟨_, processCandidate_rejected_prev st c.1 c.2 hp⟩
      · cases hv : validateBlock c.2 with
        | error e => cases e; exact absurd hv hc
        | ok bv =>
          cases bv with
          | false => exact ⟨_, processCandidate_rejected_false st c.1 c.2 hp hv⟩
          | true => exact ⟨_, processCandidate_accepted st c.1 c.2 hp hv⟩
    obtain ⟨s, hs⟩ := hstep
    obtain ⟨st', hst'⟩ := ih (fun p hpm => hne p (by simp [hpm])) s
    refine ⟨st', ?_⟩
    unfold processBlocks
    rw [hs]
    exact hst'

/-- C8: processing a fixed independent batch of candidates of one height in
any order yields the same `tips` mapping, the same `invalid` set and the
same `prevs` mapping. -/
theorem candidate_order_spec (st : ScanState) (cs₁ cs₂ : List (String × Block))
    (hperm : cs₁.Perm cs₂) (hInd : Indep cs₁)
    (hne : ∀ p ∈ cs₁, validateBlock p.2 ≠ .error ()) :
    ∃ st₁ st₂, processBlocks st cs₁ = .ok st₁ ∧ processBlocks st cs₂ = .ok st₂ ∧
      (∀ k, lookupJS st₁.tips k = lookupJS st₂.tips k) ∧
      (∀ z, z ∈ st₁.invalid ↔ z ∈ st₂.invalid) ∧
      (∀ k, lookupJS st₁.prevs k = lookupJS st₂.prevs k) := by
  obtain ⟨st₁, h1⟩ := processBlocks_ok cs₁ hne st
  obtain ⟨st₂, h2⟩ := processBlocks_ok cs₂
    (fun p hp => hne p (hperm.mem_iff.mpr hp)) st
  have hE := processBlocks_perm_ext hperm st hInd
  rw [h1, h2] at hE
  exact ⟨st₁, st₂, h1, h2, hE.1, hE.2.1, hE.2.2⟩

/-- A valid candidate for the C8 witness batch. -/
def blkP1 : Block :=
  { hash := "h1", prev := "p1", height := 0,
    txs := [{ inputs := [], outputs := [5000000000] }] }

/-- An invalid (wrong coinbase) candidate for the C8 witness batch. -/
def blkP2 : Block :=
  { hash := "h2", prev := "p2", height := 0,
    txs := [{ inputs := [], outputs := [7] }] }

/-- Witness for C8 on a two-candidate batch processed in both orders. -/
theorem candidate_order_witness :
    ∃ st₁ st₂,
      processBlocks { tips := [], prevs := [], invalid := [] }
        [("h1", blkP1), ("h2", blkP2)] = .ok st₁ ∧
      processBlocks { tips := [], prevs := [], invalid := [] }
        [("h2", blkP2), ("h1", blkP1)] = .ok st₂ ∧
      (∀ k, lookupJS st₁.tips k = lookupJS st₂.tips k) ∧
      (∀ z, z ∈ st₁.invalid ↔ z ∈ st₂.invalid) ∧
      (∀ k, lookupJS st₁.prevs k = lookupJS st₂.prevs k) := by
  refine candidate_order_spec { tips := [], prevs := [], invalid := [] }
    [("h1", blkP1), ("h2", blkP2)] [("h2", blkP2), ("h1", blkP1)]
    (List.Perm.swap ("h2", blkP2) ("h1", blkP1) []) ?_ ?_
  · refine ⟨?_, ?_, ?_⟩ <;> decide
  · decide

/-- The node interface used by `showtime`: `Bitcoin.rpc("getinfo")["blocks"]`,
`Bitcoin.rpc("getblocksbyheight", h)` and `Bitcoin.rpc("getblock", bhash)`. -/
structure NodeData where
  blocksCount : Nat
  getblocksbyheight : Nat → List String
  getblock : String → Block

/-- The whole `showtime` function: scan heights 6929851 .. blocksCount
folding each height's candidates through the candidate loop, then run the
selection and reconstruction phases; returns `(valid, invalid)`, with
`Except.error ()` modelling any exception escaping the function. -/
def showtime (node : NodeData) : Except Unit (List String × List String) :=
  let startHeight := 6929851
  let heights := List.range' startHeight (node.blocksCount + 1 - startHeight)
  let scan := heights.foldlM
    (fun st h =>
      processBlocks st ((node.getblocksbyheight h).map
        (fun bhash => (bhash, node.getblock bhash))))
    { tips := [], prevs := [], invalid := [] }
  match scan with
  | .error e => .error e
  | .ok st =>
    match selectChain st.tips st.prevs with
    | .error e => .error e
    | .ok valid => .ok (valid, st.invalid)
